import Mathlib

/-!
Verification development for the Focus-Mode daemon (src/main.py).

The embedding models:
* text lines as lists of characters (`Line`), with Python `str.strip`
  (`pystrip`) and Python substring containment (`containsSub`);
* the shared redirect file (`/etc/hosts`) as a `FileState`: its lines
  (without terminating newline characters) plus a flag recording whether
  the raw content ends in a final newline — this captures the exact
  append behaviour of writing at `SEEK_END`;
* `block_websites` / `unblock_websites` as pure transformers of the
  blocklist-file content and the redirect `FileState`;
* the per-tick state machine of `focus_daemon` as a function from the
  stored mode and the observed app name to the next mode and a list of
  side-effect `Action`s, and the daemon loop with its `try/finally`
  cleanup as a function from a finite schedule of step inputs;
* `apply_focus_policies` over explicit outcomes of the two shell
  commands it runs, recording which sub-actions were attempted and
  whether an exception escapes the function;
* the start/stop controller over an abstract controller state;
* the file-system event traces of `block_websites`/`unblock_websites`
  (lock, read, write, unlock) for the advisory-locking claim.
-/

namespace FocusMode
/-- A line of text, as a list of characters (newline characters excluded:
lines are the pieces between newlines). -/
abbrev Line := List Char

/-- The whitespace set of Python `str.strip()`. -/
def pyIsSpace (c : Char) : Bool :=
  c == ' ' || c == '\t' || c == '\n' || c == '\r' || c == '\x0b' || c == '\x0c'

/-- Python `str.lstrip()`. -/
def lstrip (l : Line) : Line := l.dropWhile pyIsSpace

/-- Python `str.rstrip()`. -/
def rstrip (l : Line) : Line := (l.reverse.dropWhile pyIsSpace).reverse

/-- Python `str.strip()`: drop whitespace from both ends. -/
def pystrip (l : Line) : Line := rstrip (lstrip l)

/-- The entries read from the blocklist source file, exactly as in
`[line.strip() for line in bf if line.strip() and not line.startswith("#")]`:
the `startswith` test is on the raw line, the emptiness test and the kept
value use the stripped line. -/
def parseBlocklist (raw : List Line) : List Line :=
  (raw.filter (fun l => !(pystrip l).isEmpty && !(decide (l.head? = some '#')))).map pystrip

/-- The constant `REDIRECT_IP = "127.0.0.1"` from the source. -/
def REDIRECT_IP : Line := ['1', '2', '7', '.', '0', '.', '0', '.', '1']

/-- The hosts line written for one blocked site: `f"{REDIRECT_IP} {site}"`. -/
def entryOf (site : Line) : Line := REDIRECT_IP ++ ' ' :: site

/-- The shared redirect file: its lines (without newline characters) and
whether the raw content ends in a final newline.  A file produced by
normal line-oriented writes has `trailing = true`; `trailing = false`
models a file whose last line is unterminated. -/
structure FileState where
  lines : List Line
  trailing : Bool
deriving DecidableEq, Repr

/-- Appending raw text to a file whose last line is unterminated merges
the text with that last line (this is what a write at `SEEK_END` does). -/
def appendToLast : List Line → Line → List Line
  | [], n => [n]
  | [l], n => [l ++ n]
  | l :: l2 :: ls, n => l :: appendToLast (l2 :: ls) n

/-- Append newline-terminated lines at the end of the file, exactly as
`f.seek(0, SEEK_END); f.write(entry + "\n")` repeated does. -/
def appendLines (fs : FileState) (new : List Line) : FileState :=
  match new with
  | [] => fs
  | n :: ns =>
    if fs.trailing then ⟨fs.lines ++ n :: ns, true⟩
    else ⟨appendToLast fs.lines n ++ ns, true⟩

/-- List prefix test (by structural recursion, used to define substring
containment). -/
def isPre : Line → Line → Bool
  | [], _ => true
  | _ :: _, [] => false
  | a :: as, b :: bs => a == b && isPre as bs

/-- Python `needle in hay` substring containment on strings. -/
def containsSub : Line → Line → Bool
  | n, [] => isPre n []
  | n, c :: t => isPre n (c :: t) || containsSub n t

/-- The keep condition of `unblock_websites`: a hosts line survives iff no
blocked site occurs in it (`not any(site in line for site in blocked)`). -/
def keepLine (sites : List Line) (l : Line) : Bool :=
  !(sites.any (fun s => containsSub s l))

/-- The set of sites that `block_websites` will append: sites of the
blocklist whose redirect entry is not already present among the stripped
existing lines.  `existing_lines` is computed once, before the write loop,
so duplicate blocklist entries each pass this test. -/
def toAddOf (bl : List Line) (fs : FileState) : List Line :=
  (parseBlocklist bl).filter
    (fun s => !(decide (entryOf s ∈ fs.lines.map pystrip)))

/-- `block_websites` from src/main.py, acting on the blocklist-file
content `bl` (the content after the initial `touch`) and the redirect
`FileState`.  If no sites are configured it returns before opening the
redirect file. -/
def block_websites (bl : List Line) (fs : FileState) : FileState :=
  if (parseBlocklist bl).isEmpty then fs
  else appendLines fs ((toAddOf bl fs).map entryOf)

/-- `block_websites` including the `touch` that creates the blocklist
source file when absent: the first component is the blocklist-file
content after the call (`none` on input models a missing file). -/
def block_websites_full (blFile : Option (List Line)) (fs : FileState) :
    List Line × FileState :=
  (blFile.getD [], block_websites (blFile.getD []) fs)

/-- `unblock_websites` from src/main.py; `blFile = none` models a missing
blocklist source file (the function returns without touching the redirect
file).  Otherwise the redirect file is rewritten with exactly the lines in
which no blocked site occurs; the rewritten file ends in a newline unless
the original file had an unterminated last line and that line survived. -/
def unblock_websites (blFile : Option (List Line)) (fs : FileState) : FileState :=
  match blFile with
  | none => fs
  | some bl =>
    ⟨fs.lines.filter (keepLine (parseBlocklist bl)),
     if (fs.lines.filter (keepLine (parseBlocklist bl))).isEmpty then true
     else fs.trailing || !(keepLine (parseBlocklist bl) (fs.lines.getLastD []))⟩

/-- The configured productive apps (`whitelist` in src/main.py). -/
def whitelist : List Line :=
  ["code".toList, "libreoffice".toList, "gedit".toList, "google-docs".toList,
   "gnome-terminal".toList]

/-- The configured distracting apps (`blacklist` in src/main.py). -/
def blacklist : List Line :=
  ["firefox".toList, "chrome".toList, "vlc".toList, "spotify".toList,
   "youtube".toList]

/-- The two enforcement modes stored in `current_mode` (the source stores
the strings "distracted" / "productive"; `none` models the initial
`current_mode = None`). -/
inductive Mode
  | distracted
  | productive
deriving DecidableEq, Repr

/-- Classification labels for one observed app name. -/
inductive AppLabel
  | Productive
  | Distracting
  | Neutral
deriving DecidableEq, Repr

/-- The classification performed by the daemon's branch structure:
Distracting if any blacklist entry occurs in the app name, else
Productive if any whitelist entry occurs, else Neutral. -/
def classify (wl bl : List Line) (app_name : Line) : AppLabel :=
  if bl.any (fun name => containsSub name app_name) then AppLabel.Distracting
  else if wl.any (fun name => containsSub name app_name) then AppLabel.Productive
  else AppLabel.Neutral

/-- Python `str.lower()` (the source lowercases every app name it
classifies, in `get_active_app`). -/
def lowerLine (l : Line) : Line := l.map Char.toLower

/-- Case-insensitive substring containment. -/
def ciContains (needle hay : Line) : Bool :=
  containsSub (lowerLine needle) (lowerLine hay)

/-- One observable side effect of the daemon loop. -/
inductive Action
  | initDb
  | terminate (kw : Line)
  | blockSites
  | unblockSites
  | applyPolicy (m : Mode)
  | logSession (app : Line) (m : Mode)
deriving DecidableEq, Repr

/-- One iteration of the `focus_daemon` while-body after `get_active_app`
returned `app_name`: the next stored mode and the side effects performed,
in order.  In the blacklist branch, `terminate_app` runs for every
matching blacklist name on every such tick, before the mode test; the
block/policy/log sequence runs only when the stored mode differs. -/
def tick (current_mode : Option Mode) (app_name : Line) :
    Option Mode × List Action :=
  if blacklist.any (fun name => containsSub name app_name) then
    if current_mode ≠ some Mode.distracted then
      (some Mode.distracted,
        (blacklist.filter (fun name => containsSub name app_name)).map Action.terminate
          ++ [Action.blockSites, Action.applyPolicy Mode.distracted,
              Action.logSession app_name Mode.distracted])
    else
      (current_mode,
        (blacklist.filter (fun name => containsSub name app_name)).map Action.terminate)
  else if whitelist.any (fun name => containsSub name app_name) then
    if current_mode ≠ some Mode.productive then
      (some Mode.productive,
        [Action.unblockSites, Action.applyPolicy Mode.productive,
         Action.logSession app_name Mode.productive])
    else (current_mode, [])
  else (current_mode, [])

/-- Run a sequence of ticks from a given mode, accumulating side effects. -/
def runTicks (m : Option Mode) (apps : List Line) : Option Mode × List Action :=
  match apps with
  | [] => (m, [])
  | a :: rest =>
    let s := tick m a
    let r := runTicks s.1 rest
    (r.1, s.2 ++ r.2)

/-- One scheduled event of the daemon loop: the stop event is observed at
the top of an iteration, or a tick runs on an observed app name, or an
uncaught exception is raised inside a tick. -/
inductive StepIn
  | stopSignal
  | tickApp (a : Line)
  | tickRaise
deriving DecidableEq, Repr

/-- How a (finite) daemon schedule ended: stop observed, exception raised,
or still looping when the schedule ran out. -/
inductive ExitKind
  | stopped
  | crashed
  | running
deriving DecidableEq, Repr

/-- The `finally` block of `focus_daemon`: `unblock_websites()` then
`apply_focus_policies("productive")`, in that order. -/
def cleanupTrace : List Action :=
  [Action.unblockSites, Action.applyPolicy Mode.productive]

/-- The `try` body of `focus_daemon`: the while loop, checking the stop
event at the top of each iteration and propagating an exception raised
inside a tick. -/
def daemonBody : Option Mode → List StepIn → List Action × ExitKind
  | _, [] => ([], ExitKind.running)
  | _, StepIn.stopSignal :: _ => ([], ExitKind.stopped)
  | _, StepIn.tickRaise :: _ => ([], ExitKind.crashed)
  | m, StepIn.tickApp a :: rest =>
    let s := tick m a
    let r := daemonBody s.1 rest
    (s.2 ++ r.1, r.2)

/-- `focus_daemon` on a finite schedule: `init_db`, then the loop body,
and — whenever the body exits, normally or exceptionally — the `finally`
cleanup. -/
def focus_daemon (ins : List StepIn) : List Action × ExitKind :=
  match daemonBody none ins with
  | (tr, ExitKind.running) => (Action.initDb :: tr, ExitKind.running)
  | (tr, e) => (Action.initDb :: (tr ++ cleanupTrace), e)

/-- The mode strings passed to `apply_focus_policies`. -/
def distractedStr : Line := "distracted".toList

/-- The mode string for the productive branch of `apply_focus_policies`. -/
def productiveStr : Line := "productive".toList

/-- Outcome of one `_quiet_run` shell command: the process ran and exited
with a code (`subprocess.run` without `check` never raises for a nonzero
exit code), or the call raised before the command ran (e.g. the binary is
missing). -/
inductive RunOutcome
  | exits (code : Nat)
  | failStart
deriving DecidableEq, Repr

/-- The sub-actions `apply_focus_policies` can attempt. -/
inductive SubAct
  | dockHide
  | dockShow
  | mute
  | unmute
deriving DecidableEq, Repr

/-- `apply_focus_policies` from src/main.py over explicit outcomes of its
two `_quiet_run` calls: returns the sub-actions attempted (in order) and
whether an exception escapes the function.  The whole body sits in one
`try/except Exception`, so an exception from the first command aborts the
body — skipping the second command — but is caught at the function
boundary. -/
def apply_focus_policies (mode : Line) (o1 o2 : RunOutcome) :
    List SubAct × Bool :=
  if mode = distractedStr then
    match o1 with
    | RunOutcome.failStart => ([SubAct.dockHide], false)
    | RunOutcome.exits _ =>
      match o2 with
      | RunOutcome.failStart => ([SubAct.dockHide, SubAct.mute], false)
      | RunOutcome.exits _ => ([SubAct.dockHide, SubAct.mute], false)
  else if mode = productiveStr then
    match o1 with
    | RunOutcome.failStart => ([SubAct.dockShow], false)
    | RunOutcome.exits _ =>
      match o2 with
      | RunOutcome.failStart => ([SubAct.dockShow, SubAct.unmute], false)
      | RunOutcome.exits _ => ([SubAct.dockShow, SubAct.unmute], false)
  else ([], false)

/-- The daemon controller state: whether the background worker thread is
alive, how many workers and stop events were ever created, and the global
log of worker side effects. -/
structure Ctrl where
  running : Bool
  spawned : Nat
  signalsCreated : Nat
  log : List Action
deriving DecidableEq, Repr

/-- `start_focus_mode`: under the controller lock, refuse if a live
worker exists; otherwise create a fresh stop event and launch a worker. -/
def start_focus_mode (c : Ctrl) : Bool × Ctrl :=
  if c.running then (false, c)
  else
    (true,
     { c with
        running := true
        spawned := c.spawned + 1
        signalsCreated := c.signalsCreated + 1 })

/-- `stop_focus_mode`: under the controller lock, refuse if no live
worker; otherwise set the stop event and join the worker — the worker
observes the stop event at the next loop-head check (after running any
steps already pending), finishes its run including the `finally` cleanup,
and only then does `stop` return true. -/
def stop_focus_mode (c : Ctrl) (pending : List StepIn) : Bool × Ctrl :=
  if c.running then
    (true,
     { c with
        running := false
        log := c.log ++ (focus_daemon (pending ++ [StepIn.stopSignal])).1 })
  else (false, c)

/-- File-system events on the shared redirect file. -/
inductive FsEvent
  | lockEx
  | unlockEv
  | readHosts
  | writeHosts
deriving DecidableEq, Repr

/-- The redirect-file event trace of `block_websites`: nothing when no
sites are configured; otherwise `flock(LOCK_EX)`, the read, one write per
appended entry, and the `flock(LOCK_UN)` in the `finally`. -/
def block_websites_events (bl : List Line) (fs : FileState) : List FsEvent :=
  if (parseBlocklist bl).isEmpty then []
  else
    FsEvent.lockEx :: FsEvent.readHosts ::
      ((toAddOf bl fs).map (fun _ => FsEvent.writeHosts) ++ [FsEvent.unlockEv])

/-- The redirect-file event trace of `unblock_websites`: nothing when the
blocklist source file is missing; otherwise a read followed by the
truncating rewrite — with no lock events at all. -/
def unblock_websites_events (blFile : Option (List Line)) : List FsEvent :=
  match blFile with
  | none => []
  | some _ => [FsEvent.readHosts, FsEvent.writeHosts]

/-- The advisory lock is held before executing position `i` of an event
trace: strictly more acquisitions than releases among the first `i`
events. -/
def lockHeldAt (tr : List FsEvent) (i : Nat) : Bool :=
  (tr.take i).countP (fun e => decide (e = FsEvent.unlockEv))
    < (tr.take i).countP (fun e => decide (e = FsEvent.lockEx))

/-- One blocklist-manager operation on the redirect file. -/
inductive HostsOp
  | doBlock (bl : List Line)
  | doUnblock (blFile : Option (List Line))
deriving DecidableEq, Repr

/-- Apply one operation. -/
def applyOp : HostsOp → FileState → FileState
  | HostsOp.doBlock bl, fs => block_websites bl fs
  | HostsOp.doUnblock blFile, fs => unblock_websites blFile fs

/-- Apply a sequence of operations, left to right. -/
def applyOps (ops : List HostsOp) (fs : FileState) : FileState :=
  match ops with
  | [] => fs
  | op :: rest => applyOps rest (applyOp op fs)

/-- The redirect file holds at most one redirect line per hostname. -/
def hostsInv (fs : FileState) : Prop :=
  ∀ s : Line, fs.lines.countP (fun l => decide (l = entryOf s)) ≤ 1

/-- A block operation whose parsed entry list has no repeated hostnames
(unblock operations are unconstrained). -/
def opEntriesNodup : HostsOp → Prop
  | HostsOp.doBlock bl => (parseBlocklist bl).Nodup
  | HostsOp.doUnblock _ => True

theorem dropWhile_head_false {p : Char → Bool} :
    ∀ (l : Line) {c : Char} {cs : Line}, l.dropWhile p = c :: cs → p c = false := by
  intro l
  induction l with
  | nil => intro c cs h; simp [List.dropWhile] at h
  | cons a as ih =>
    intro c cs h
    by_cases hp : p a = true
    · rw [List.dropWhile_cons, if_pos hp] at h
      exact ih h
    · rw [List.dropWhile_cons, if_neg hp] at h
      obtain ⟨rfl, -⟩ := List.cons.injEq .. ▸ h
      simpa using hp

theorem dropWhile_eq_self {p : Char → Bool} {l : Line}
    (h : ∀ c cs, l = c :: cs → p c = false) : l.dropWhile p = l := by
  cases l with
  | nil => rfl
  | cons a as =>
    rw [List.dropWhile_cons, if_neg]
    simp [h a as rfl]

theorem rstrip_is_first_part (l : Line) : ∃ t, l = rstrip l ++ t := by
  obtain ⟨s, hs⟩ := List.dropWhile_suffix (l := l.reverse) pyIsSpace
  refine ⟨s.reverse, ?_⟩
  have := congrArg List.reverse hs
  simpa [rstrip] using this.symm

theorem pystrip_head {l : Line} {c : Char} {cs : Line} (h : pystrip l = c :: cs) :
    pyIsSpace c = false := by
  obtain ⟨t, ht⟩ := rstrip_is_first_part (lstrip l)
  rw [pystrip] at h
  rw [h] at ht
  exact dropWhile_head_false l (by simpa [lstrip] using ht)

theorem pystrip_revhead {l : Line} {c : Char} {cs : Line}
    (h : (pystrip l).reverse = c :: cs) : pyIsSpace c = false := by
  rw [pystrip, rstrip, List.reverse_reverse] at h
  exact dropWhile_head_false _ h

theorem pystrip_fix {l : Line}
    (h1 : ∀ c cs, l = c :: cs → pyIsSpace c = false)
    (h2 : ∀ c cs, l.reverse = c :: cs → pyIsSpace c = false) :
    pystrip l = l := by
  have hl : lstrip l = l := dropWhile_eq_self h1
  rw [pystrip, hl, rstrip, dropWhile_eq_self h2, List.reverse_reverse]

theorem pystrip_idem (l : Line) : pystrip (pystrip l) = pystrip l := by
  cases h : pystrip l with
  | nil => rfl
  | cons c cs =>
    apply pystrip_fix
    · intro d ds hd
      obtain ⟨rfl, -⟩ := List.cons.injEq .. ▸ hd
      exact pystrip_head h
    · intro d ds hd
      exact pystrip_revhead (l := l) (by rw [h, hd])

theorem parseBlocklist_mem {raw : List Line} {s : Line}
    (h : s ∈ parseBlocklist raw) : s ≠ [] ∧ pystrip s = s := by
  rw [parseBlocklist] at h
  obtain ⟨l, hl, rfl⟩ := List.mem_map.mp h
  have hcond := (List.mem_filter.mp hl).2
  constructor
  · intro hnil
    rw [hnil] at hcond
    simp at hcond
  · exact pystrip_idem l

theorem entryOf_injective : Function.Injective entryOf := by
  intro s t h
  rw [entryOf, entryOf] at h
  have := List.append_cancel_left h
  exact (List.cons.injEq .. ▸ this).2

theorem pystrip_entryOf {s : Line} (hne : s ≠ []) (hs : pystrip s = s) :
    pystrip (entryOf s) = entryOf s := by
  apply pystrip_fix
  · intro c cs h
    rw [entryOf, REDIRECT_IP] at h
    obtain ⟨rfl, -⟩ := List.cons.injEq .. ▸ h
    rfl
  · intro c cs h
    cases hsrev : s.reverse with
    | nil =>
      exact absurd (by simpa using congrArg List.reverse hsrev) hne
    | cons d ds =>
      have hd : pyIsSpace d = false := pystrip_revhead (l := s) (by rw [hs, hsrev])
      rw [entryOf, List.reverse_append, List.reverse_cons, hsrev] at h
      obtain ⟨rfl, -⟩ := List.cons.injEq .. ▸ h
      exact hd

theorem isPre_append (l t : Line) : isPre l (l ++ t) = true := by
  induction l with
  | nil => rfl
  | cons a as ih => simpa [isPre] using ih

theorem containsSub_of_isPre {n h : Line} (hp : isPre n h = true) :
    containsSub n h = true := by
  cases h with
  | nil => exact hp
  | cons c t => simp [containsSub, hp]

theorem containsSub_append_right (pre s : Line) :
    containsSub s (pre ++ s) = true := by
  induction pre with
  | nil => exact containsSub_of_isPre (by simpa using isPre_append s [])
  | cons a as ih =>
    rw [List.cons_append, containsSub, ih]
    simp

theorem toAdd_after_block (bl : List Line) (fs : FileState) (h : fs.trailing = true) :
    toAddOf bl (block_websites bl fs) = [] := by
  rw [toAddOf]
  apply List.filter_eq_nil_iff.mpr
  intro s hs
  simp only [Bool.not_eq_true', decide_eq_false_iff_not, Decidable.not_not]
  by_cases hemp : (parseBlocklist bl).isEmpty
  · rw [List.isEmpty_iff] at hemp
    rw [hemp] at hs
    exact absurd hs (List.not_mem_nil s)
  · rw [block_websites, if_neg hemp]
    rw [toAddOf] at *
    cases hta : (parseBlocklist bl).filter
        (fun s => !(decide (entryOf s ∈ fs.lines.map pystrip))) with
    | nil =>
      simp only [hta, List.map_nil, appendLines]
      have := List.filter_eq_nil_iff.mp hta s hs
      simpa using this
    | cons e es =>
      rw [List.map_cons, appendLines, h, if_pos rfl]
      dsimp only
      rw [← List.map_cons entryOf e es, List.map_append]
      by_cases hmem : entryOf s ∈ fs.lines.map pystrip
      · exact List.mem_append_left _ hmem
      · refine List.mem_append_right _ ?_
        have hsin : s ∈ (parseBlocklist bl).filter
            (fun s => !(decide (entryOf s ∈ fs.lines.map pystrip))) :=
          List.mem_filter.mpr ⟨hs, by simpa using hmem⟩
        rw [hta] at hsin
        obtain ⟨hne, hstrip⟩ := parseBlocklist_mem hs
        exact List.mem_map.mpr
          ⟨entryOf s, List.mem_map_of_mem entryOf hsin, pystrip_entryOf hne hstrip⟩

theorem block_idem_of_trailing (bl : List Line) (fs : FileState)
    (h : fs.trailing = true) :
    block_websites bl (block_websites bl fs) = block_websites bl fs := by
  by_cases hemp : (parseBlocklist bl).isEmpty
  · conv_lhs => rw [block_websites, if_pos hemp]
  · conv_lhs => rw [block_websites, if_neg hemp, toAdd_after_block bl fs h]
    simp [appendLines]

theorem block_preserves_trailing (bl : List Line) (fs : FileState)
    (h : fs.trailing = true) : (block_websites bl fs).trailing = true := by
  rw [block_websites]
  split
  · exact h
  · cases hE : toAddOf bl fs with
    | nil => exact h
    | cons e es =>
      rw [List.map_cons, appendLines, h, if_pos rfl]

theorem keepLine_entryOf_false {sites : List Line} {s : Line} (hs : s ∈ sites) :
    keepLine sites (entryOf s) = false := by
  have hsub : containsSub s (entryOf s) = true := by
    have := containsSub_append_right (REDIRECT_IP ++ [' ']) s
    simpa [entryOf] using this
  simp only [keepLine, Bool.not_eq_false', List.any_eq_true]
  exact ⟨s, hs, hsub⟩

theorem filter_keep_block (bl : List Line) (fs : FileState)
    (h : fs.trailing = true) :
    (block_websites bl fs).lines.filter (keepLine (parseBlocklist bl))
      = fs.lines.filter (keepLine (parseBlocklist bl)) := by
  rw [block_websites]
  split
  · rfl
  · cases hE : toAddOf bl fs with
    | nil => rfl
    | cons e es =>
      rw [List.map_cons, appendLines, h, if_pos rfl]
      dsimp only
      rw [← List.map_cons entryOf e es, List.filter_append]
      have hnil : ((e :: es).map entryOf).filter (keepLine (parseBlocklist bl)) = [] := by
        apply List.filter_eq_nil_iff.mpr
        intro a ha
        obtain ⟨s, hsmem, rfl⟩ := List.mem_map.mp ha
        have hsin : s ∈ parseBlocklist bl := by
          rw [← hE] at hsmem
          exact (List.mem_filter.mp hsmem).1
        simp [keepLine_entryOf_false hsin]
      rw [hnil, List.append_nil]

/-- C3 counterexample: the claim quantifies over every initial
redirect-file state, but when the initial file does not end in a newline
(here a single unterminated line "foo"), the first `block` appends its
entry directly after "foo", producing the merged line
"foo127.0.0.1 a"; the second `block` no longer finds the entry among the
stripped lines and appends it again, so `block;block` differs from a
single `block`. -/
theorem c3_counterexample :
    block_websites [['a']] (block_websites [['a']] ⟨[['f', 'o', 'o']], false⟩)
      ≠ block_websites [['a']] ⟨[['f', 'o', 'o']], false⟩ := by decide

/-- C3 (amended): for every blocklist content and every initial
redirect-file state that ends in a final newline (or is empty), calling
`block` twice in succession leaves the redirect file in exactly the same
state as calling it once. -/
theorem c3_block_idempotent (bl : List Line) (fs : FileState)
    (h : fs.trailing = true) :
    block_websites bl (block_websites bl fs) = block_websites bl fs :=
  block_idem_of_trailing bl fs h

/-- C3 witness: the amended idempotence at a concrete newline-terminated
file. -/
theorem c3_block_idempotent_witness :
    (⟨[['b', 'a', 'r']], true⟩ : FileState).trailing = true ∧
      block_websites [['a']] (block_websites [['a']] ⟨[['b', 'a', 'r']], true⟩)
        = block_websites [['a']] ⟨[['b', 'a', 'r']], true⟩ :=
  ⟨rfl, c3_block_idempotent [['a']] ⟨[['b', 'a', 'r']], true⟩ rfl⟩

/-- C4 counterexample: starting from the redirect file whose single line
"foo" is unterminated and unrelated to the blocked site "a", `block`
merges its entry into that line and `unblock` then deletes the merged
line, so the pre-existing unrelated line is not preserved: the final file
has no lines at all, although `keepLine` certifies "foo" as unrelated. -/
theorem c4_counterexample :
    (unblock_websites (some [['a']])
        (block_websites [['a']] ⟨[['f', 'o', 'o']], false⟩)).lines = [] ∧
      keepLine (parseBlocklist [['a']]) ['f', 'o', 'o'] = true := by decide

/-- C4 (amended): for every blocklist content and every initial
redirect-file state ending in a final newline, `block` then `unblock`
leaves the redirect file holding exactly the initial lines in which no
blocked site occurs, in their original order (so all managed redirect
lines for the blocked sites are gone and every unrelated pre-existing
line is preserved unchanged). -/
theorem c4_block_unblock_round_trip (bl : List Line) (fs : FileState)
    (h : fs.trailing = true) :
    unblock_websites (some bl) (block_websites bl fs)
        = ⟨fs.lines.filter (keepLine (parseBlocklist bl)), true⟩ ∧
      ∀ l ∈ (unblock_websites (some bl) (block_websites bl fs)).lines,
        ∀ s ∈ parseBlocklist bl, containsSub s l = false := by
  have hkept := filter_keep_block bl fs h
  have htr := block_preserves_trailing bl fs h
  have hmain : unblock_websites (some bl) (block_websites bl fs)
      = ⟨fs.lines.filter (keepLine (parseBlocklist bl)), true⟩ := by
    rw [unblock_websites, hkept]
    congr 1
    by_cases hke : (fs.lines.filter (keepLine (parseBlocklist bl))).isEmpty
    · rw [if_pos hke]
    · rw [if_neg hke, htr, Bool.true_or]
  refine ⟨hmain, ?_⟩
  intro l hl s hsin
  rw [hmain] at hl
  have hk := (List.mem_filter.mp hl).2
  rw [keepLine] at hk
  have hany : (parseBlocklist bl).any (fun s2 => containsSub s2 l) = false := by
    simpa using hk
  simpa using List.any_eq_false.mp hany s hsin

/-- C4 witness: the amended round trip at a concrete newline-terminated
file with one unrelated line. -/
theorem c4_block_unblock_round_trip_witness :
    (⟨[['b', 'a', 'r']], true⟩ : FileState).trailing = true ∧
      (unblock_websites (some [['a']])
            (block_websites [['a']] ⟨[['b', 'a', 'r']], true⟩)
          = ⟨(⟨[['b', 'a', 'r']], true⟩ : FileState).lines.filter
              (keepLine (parseBlocklist [['a']])), true⟩ ∧
        ∀ l ∈ (unblock_websites (some [['a']])
            (block_websites [['a']] ⟨[['b', 'a', 'r']], true⟩)).lines,
          ∀ s ∈ parseBlocklist [['a']], containsSub s l = false) :=
  ⟨rfl, c4_block_unblock_round_trip [['a']] ⟨[['b', 'a', 'r']], true⟩ rfl⟩

/-- C9: if the blocklist parses to no entries (blank and comment lines
dropped), `block_websites` leaves the redirect file completely unchanged
while the blocklist source file exists afterwards (the `touch` creates it
when absent, with empty content); and when the blocklist source file does
not exist, `unblock_websites` is a no-op on the redirect file. -/
theorem c9_noop_cases (blFile : Option (List Line)) (fs : FileState)
    (h : parseBlocklist (blFile.getD []) = []) :
    block_websites_full blFile fs = (blFile.getD [], fs) ∧
      (block_websites_full none fs).1 = [] ∧
      unblock_websites none fs = fs := by
  refine ⟨?_, rfl, rfl⟩
  have hemp : (parseBlocklist (blFile.getD [])).isEmpty = true := by rw [h]; rfl
  have hbw : block_websites (blFile.getD []) fs = fs := by
    rw [block_websites, if_pos hemp]
  rw [block_websites_full, hbw]

/-- C9 witness: a blocklist holding only a comment line and a blank line
parses to no entries, and both no-op cases hold at a concrete file. -/
theorem c9_noop_cases_witness :
    parseBlocklist ((some [['#', 'x'], []]).getD []) = [] ∧
      (block_websites_full (some [['#', 'x'], []]) ⟨[['z']], false⟩
          = ((some [['#', 'x'], []]).getD [], ⟨[['z']], false⟩) ∧
        (block_websites_full none ⟨[['z']], false⟩).1 = [] ∧
        unblock_websites none ⟨[['z']], false⟩ = ⟨[['z']], false⟩) :=
  ⟨by decide, c9_noop_cases (some [['#', 'x'], []]) ⟨[['z']], false⟩ (by decide)⟩

/-- C5: for every app name, if some blacklist entry occurs in it
(case-insensitively), classification of the lowercased name — the daemon
always classifies the lowercased app name — yields Distracting,
regardless of whitelist matches; if no blacklist entry occurs but some
whitelist entry does, it yields Productive; otherwise Neutral. -/
theorem c5_classify_precedence (a : Line) :
    ((∃ b ∈ blacklist, ciContains b a = true) →
        classify whitelist blacklist (lowerLine a) = AppLabel.Distracting) ∧
      ((∀ b ∈ blacklist, ciContains b a = false) →
        (∃ w ∈ whitelist, ciContains w a = true) →
        classify whitelist blacklist (lowerLine a) = AppLabel.Productive) ∧
      ((∀ b ∈ blacklist, ciContains b a = false) →
        (∀ w ∈ whitelist, ciContains w a = false) →
        classify whitelist blacklist (lowerLine a) = AppLabel.Neutral) := by
  have hbl : ∀ b ∈ blacklist, lowerLine b = b := by decide
  have hwl : ∀ w ∈ whitelist, lowerLine w = w := by decide
  have hciB : ∀ b ∈ blacklist, ciContains b a = containsSub b (lowerLine a) := by
    intro b hb
    rw [ciContains, hbl b hb]
  have hciW : ∀ w ∈ whitelist, ciContains w a = containsSub w (lowerLine a) := by
    intro w hw
    rw [ciContains, hwl w hw]
  refine ⟨?_, ?_, ?_⟩
  · rintro ⟨b, hb, hci⟩
    have h1 : blacklist.any (fun name => containsSub name (lowerLine a)) = true :=
      List.any_eq_true.mpr ⟨b, hb, by rw [← hciB b hb]; exact hci⟩
    rw [classify, if_pos h1]
  · intro hB hW
    obtain ⟨w, hw, hci⟩ := hW
    have h1 : blacklist.any (fun name => containsSub name (lowerLine a)) = false := by
      apply List.any_eq_false.mpr
      intro b hb
      rw [← hciB b hb]
      simp [hB b hb]
    have h2 : whitelist.any (fun name => containsSub name (lowerLine a)) = true :=
      List.any_eq_true.mpr ⟨w, hw, by rw [← hciW w hw]; exact hci⟩
    rw [classify, if_neg (by simp [h1]), if_pos h2]
  · intro hB hW
    have h1 : blacklist.any (fun name => containsSub name (lowerLine a)) = false := by
      apply List.any_eq_false.mpr
      intro b hb
      rw [← hciB b hb]
      simp [hB b hb]
    have h2 : whitelist.any (fun name => containsSub name (lowerLine a)) = false := by
      apply List.any_eq_false.mpr
      intro w hw
      rw [← hciW w hw]
      simp [hW w hw]
    rw [classify, if_neg (by simp [h1]), if_neg (by simp [h2])]

/-- C5 witness: "Code-Firefox" matches both a whitelist entry ("code")
and a blacklist entry ("firefox") case-insensitively, and the blacklist
wins. -/
theorem c5_classify_precedence_witness :
    (∃ b ∈ blacklist, ciContains b "Code-Firefox".toList = true) ∧
      classify whitelist blacklist (lowerLine "Code-Firefox".toList)
        = AppLabel.Distracting :=
  ⟨by decide, (c5_classify_precedence "Code-Firefox".toList).1 (by decide)⟩

/-- C1 counterexample: a tick whose classified label (Distracting)
already equals the stored mode "distracted" still performs side effects:
`terminate_app` runs for every matching blacklist name on every
distracting tick, before the mode comparison. -/
theorem c1_counterexample :
    classify whitelist blacklist "firefox".toList = AppLabel.Distracting ∧
      (tick (some Mode.distracted) "firefox".toList).2 ≠ [] := by decide

/-- C1 (amended): a Neutral tick, and a Productive tick with the mode
already productive, perform no side effect and keep the mode; a
Distracting tick with the mode already distracted performs no
block/policy-apply/log side effect — only terminate actions for the
matching blacklist names — and keeps the mode; and the label sequence
[distracting, distracting, distracting] from the initial unset mode
fires exactly one blockSites, one applyPolicy(distracted) and one
logSession, not three. -/
theorem c1_tick_transitions (m : Option Mode) (a : Line) :
    (classify whitelist blacklist a = AppLabel.Neutral → tick m a = (m, [])) ∧
      (classify whitelist blacklist a = AppLabel.Productive →
        m = some Mode.productive → tick m a = (m, [])) ∧
      (classify whitelist blacklist a = AppLabel.Distracting →
        m = some Mode.distracted →
        tick m a = (m, (blacklist.filter
          (fun name => containsSub name a)).map Action.terminate)) ∧
      ((runTicks none
            ["firefox".toList, "firefox".toList, "firefox".toList]).2.countP
          (fun ac => decide (ac = Action.blockSites)) = 1 ∧
        (runTicks none
            ["firefox".toList, "firefox".toList, "firefox".toList]).2.countP
          (fun ac => decide (ac = Action.applyPolicy Mode.distracted)) = 1 ∧
        (runTicks none
            ["firefox".toList, "firefox".toList, "firefox".toList]).2.countP
          (fun ac => match ac with
            | Action.logSession _ _ => true
            | _ => false) = 1) := by
  refine ⟨?_, ?_, ?_, by decide⟩
  · intro hc
    by_cases h1 : blacklist.any (fun name => containsSub name a) = true
    · rw [classify, if_pos h1] at hc
      exact absurd hc (by decide)
    · by_cases h2 : whitelist.any (fun name => containsSub name a) = true
      · rw [classify, if_neg h1, if_pos h2] at hc
        exact absurd hc (by decide)
      · rw [tick, if_neg h1, if_neg h2]
  · intro hc hm
    by_cases h1 : blacklist.any (fun name => containsSub name a) = true
    · rw [classify, if_pos h1] at hc
      exact absurd hc (by decide)
    · by_cases h2 : whitelist.any (fun name => containsSub name a) = true
      · rw [tick, if_neg h1, if_pos h2, if_neg (by simp [hm])]
      · rw [classify, if_neg h1, if_neg h2] at hc
        exact absurd hc (by decide)
  · intro hc hm
    by_cases h1 : blacklist.any (fun name => containsSub name a) = true
    · rw [tick, if_pos h1, if_neg (by simp [hm])]
    · by_cases h2 : whitelist.any (fun name => containsSub name a) = true
      · rw [classify, if_neg h1, if_pos h2] at hc
        exact absurd hc (by decide)
      · rw [classify, if_neg h1, if_neg h2] at hc
        exact absurd hc (by decide)

/-- C1 witness: a Neutral tick ("xyz" matches no configured entry) from
the unset mode performs no side effect. -/
theorem c1_tick_transitions_witness :
    classify whitelist blacklist "xyz".toList = AppLabel.Neutral ∧
      tick none "xyz".toList = (none, []) :=
  ⟨by decide, (c1_tick_transitions none "xyz".toList).1 (by decide)⟩

theorem focus_daemon_cleanup (ins : List StepIn)
    (h : (focus_daemon ins).2 ≠ ExitKind.running) :
    ∃ pre, (focus_daemon ins).1 = pre ++ cleanupTrace := by
  rw [focus_daemon] at h ⊢
  cases hb : daemonBody none ins with
  | mk tr e =>
    cases e with
    | running =>
      rw [hb] at h
      simp at h
    | stopped => exact ⟨Action.initDb :: tr, by simp⟩
    | crashed => exact ⟨Action.initDb :: tr, by simp⟩

/-- C2: whenever the daemon loop exits — stop-signal observed, or an
exception raised inside a tick — its trace ends with the unconditional
cleanup, in order: unblock of all configured entries, then policy
application for Productive mode; and in the concrete crash scenario (a
distracting tick followed by an injected mid-loop failure) the run ends
crashed with applyPolicy(productive) invoked exactly once. -/
theorem c2_cleanup_on_exit (ins : List StepIn)
    (h : (focus_daemon ins).2 ≠ ExitKind.running) :
    (∃ pre, (focus_daemon ins).1
        = pre ++ [Action.unblockSites, Action.applyPolicy Mode.productive]) ∧
      ((focus_daemon [StepIn.tickApp "firefox".toList, StepIn.tickRaise]).2
          = ExitKind.crashed ∧
        (focus_daemon
            [StepIn.tickApp "firefox".toList, StepIn.tickRaise]).1.countP
          (fun ac => decide (ac = Action.applyPolicy Mode.productive)) = 1) := by
  refine ⟨?_, by decide⟩
  have hcl := focus_daemon_cleanup ins h
  simpa [cleanupTrace] using hcl

/-- C2 witness: a schedule that observes the stop signal immediately. -/
theorem c2_cleanup_on_exit_witness :
    (focus_daemon [StepIn.stopSignal]).2 ≠ ExitKind.running ∧
      ((∃ pre, (focus_daemon [StepIn.stopSignal]).1
          = pre ++ [Action.unblockSites, Action.applyPolicy Mode.productive]) ∧
        ((focus_daemon [StepIn.tickApp "firefox".toList, StepIn.tickRaise]).2
            = ExitKind.crashed ∧
          (focus_daemon
              [StepIn.tickApp "firefox".toList, StepIn.tickRaise]).1.countP
            (fun ac => decide (ac = Action.applyPolicy Mode.productive)) = 1)) :=
  ⟨by decide, c2_cleanup_on_exit [StepIn.stopSignal] (by decide)⟩

theorem nodup_countP_le_one {l : List Line} (h : l.Nodup) (a : Line) :
    l.countP (fun x => decide (x = a)) ≤ 1 := by
  induction l with
  | nil => simp
  | cons b bs ih =>
    rw [List.countP_cons]
    rcases List.nodup_cons.mp h with ⟨hbmem, hbs⟩
    by_cases hba : b = a
    · subst hba
      have hz : bs.countP (fun x => decide (x = b)) = 0 := by
        apply List.countP_eq_zero.mpr
        intro x hx
        simp only [decide_eq_true_eq]
        rintro rfl
        exact hbmem hx
      simp [hz]
    · have hble := ih hbs
      have hdf : (decide (b = a)) = false := by simp [hba]
      rw [hdf]
      simpa using hble

theorem block_preserves_hostsInv (bl : List Line) (fs : FileState)
    (hnd : (parseBlocklist bl).Nodup) (hinv : hostsInv fs)
    (htr : fs.trailing = true) : hostsInv (block_websites bl fs) := by
  intro s
  rw [block_websites]
  split
  · exact hinv s
  · cases hE : toAddOf bl fs with
    | nil => exact hinv s
    | cons e es =>
      rw [List.map_cons, appendLines, htr, if_pos rfl]
      dsimp only
      rw [← List.map_cons entryOf e es, List.countP_append]
      have hEcount : ((e :: es).map entryOf).countP
            (fun l => decide (l = entryOf s))
          = (e :: es).countP (fun t => decide (t = s)) := by
        rw [List.countP_map]
        apply List.countP_congr
        intro t ht
        simp only [Function.comp, decide_eq_true_eq]
        exact ⟨fun hts => entryOf_injective hts, fun hts => by rw [hts]⟩
      by_cases hmem : s ∈ (e :: es)
      · rw [← hE] at hmem
        rw [toAddOf] at hmem
        have hfilter := List.mem_filter.mp hmem
        have hnotex : entryOf s ∉ fs.lines.map pystrip := by
          simpa using hfilter.2
        have hzero : fs.lines.countP (fun l => decide (l = entryOf s)) = 0 := by
          apply List.countP_eq_zero.mpr
          intro l hl
          simp only [decide_eq_true_eq]
          rintro rfl
          obtain ⟨hne, hstrip⟩ := parseBlocklist_mem hfilter.1
          refine hnotex ?_
          have hmem2 : pystrip (entryOf s) ∈ fs.lines.map pystrip :=
            List.mem_map_of_mem _ hl
          rwa [pystrip_entryOf hne hstrip] at hmem2
        have hnodupAdd : (toAddOf bl fs).Nodup := by
          rw [toAddOf]
          exact hnd.filter _
        rw [hE] at hnodupAdd
        have hle := nodup_countP_le_one hnodupAdd s
        rw [hEcount, hzero]
        omega
      · have hzero : (e :: es).countP (fun t => decide (t = s)) = 0 := by
          apply List.countP_eq_zero.mpr
          intro t ht
          simp only [decide_eq_true_eq]
          rintro rfl
          exact hmem ht
        rw [hEcount, hzero]
        have := hinv s
        omega

theorem unblock_preserves_hostsInv (blFile : Option (List Line))
    (fs : FileState) (hinv : hostsInv fs) :
    hostsInv (unblock_websites blFile fs) := by
  intro s
  cases blFile with
  | none => exact hinv s
  | some bl =>
    rw [unblock_websites]
    dsimp only
    exact le_trans ((List.filter_sublist _).countP_le _) (hinv s)

theorem unblock_preserves_trailing (blFile : Option (List Line))
    (fs : FileState) (h : fs.trailing = true) :
    (unblock_websites blFile fs).trailing = true := by
  cases blFile with
  | none => exact h
  | some bl =>
    rw [unblock_websites]
    dsimp only
    split
    · rfl
    · rw [h, Bool.true_or]

theorem applyOps_preserves (ops : List HostsOp) (fs : FileState)
    (hops : ∀ op ∈ ops, opEntriesNodup op) (hinv : hostsInv fs)
    (htr : fs.trailing = true) :
    hostsInv (applyOps ops fs) ∧ (applyOps ops fs).trailing = true := by
  induction ops generalizing fs with
  | nil => exact ⟨hinv, htr⟩
  | cons op rest ih =>
    rw [applyOps]
    cases op with
    | doBlock bl =>
      have hnd : (parseBlocklist bl).Nodup := hops _ (List.mem_cons_self _ _)
      exact ih (block_websites bl fs)
        (fun o ho => hops o (List.mem_cons_of_mem _ ho))
        (block_preserves_hostsInv bl fs hnd hinv htr)
        (block_preserves_trailing bl fs htr)
    | doUnblock blFile =>
      exact ih (unblock_websites blFile fs)
        (fun o ho => hops o (List.mem_cons_of_mem _ ho))
        (unblock_preserves_hostsInv blFile fs hinv)
        (unblock_preserves_trailing blFile fs htr)

/-- C6 counterexample: a single block call whose blocklist content lists
the hostname "a" twice writes the redirect line for "a" twice, because
the membership set `existing_lines` is computed once before the write
loop; the initial empty file satisfies the invariant, the result does
not. -/
theorem c6_counterexample :
    hostsInv ⟨[], true⟩ ∧
      ¬ hostsInv (applyOps [HostsOp.doBlock [['a'], ['a']]] ⟨[], true⟩) := by
  constructor
  · intro s
    simp
  · intro h
    have h2 := h ['a']
    revert h2
    decide

/-- C6 (amended): provided every block operation's parsed blocklist has
no repeated hostnames and the redirect file ends in a final newline,
every sequence of block and unblock operations preserves the invariant
that the file holds at most one redirect line per hostname; a single
block call with a repeated hostname violates it. -/
theorem c6_no_duplicate_entries (ops : List HostsOp) (fs : FileState)
    (hops : ∀ op ∈ ops, opEntriesNodup op) (hinv : hostsInv fs)
    (htr : fs.trailing = true) : hostsInv (applyOps ops fs) :=
  (applyOps_preserves ops fs hops hinv htr).1

/-- C6 witness: a duplicate-free block followed by an unblock, from the
empty newline-terminated file. -/
theorem c6_no_duplicate_entries_witness :
    (∀ op ∈ [HostsOp.doBlock [['a'], ['b']], HostsOp.doUnblock (some [['a']])],
        opEntriesNodup op) ∧
      (⟨[], true⟩ : FileState).trailing = true ∧
      hostsInv (applyOps
        [HostsOp.doBlock [['a'], ['b']], HostsOp.doUnblock (some [['a']])]
        ⟨[], true⟩) := by
  have hops : ∀ op ∈ [HostsOp.doBlock [['a'], ['b']],
      HostsOp.doUnblock (some [['a']])], opEntriesNodup op := by
    intro op hop
    rcases List.mem_cons.mp hop with rfl | hop2
    · show (parseBlocklist [['a'], ['b']]).Nodup
      decide
    · rcases List.mem_cons.mp hop2 with rfl | hop3
      · trivial
      · exact absurd hop3 (List.not_mem_nil op)
  refine ⟨hops, rfl, ?_⟩
  exact c6_no_duplicate_entries _ ⟨[], true⟩ hops (fun s => by simp) rfl

/-- C7 counterexample: when the first sub-action raises (e.g. the
gsettings binary is missing), the single try/except wrapped around both
commands aborts the body before the audio command — only the dock
sub-action is attempted, contradicting "does not prevent the second
sub-action from being attempted". -/
theorem c7_counterexample :
    apply_focus_policies distractedStr RunOutcome.failStart (RunOutcome.exits 0)
      = ([SubAct.dockHide], false) ∧
      SubAct.mute ∉ [SubAct.dockHide] := by decide

/-- C7 (amended): no failure of either sub-action raises past the
actuator boundary (the surrounding except swallows everything); a first
sub-action failure expressed as a nonzero exit status does not prevent
the second sub-action from being attempted (subprocess.run without check
does not raise); but a first sub-action that raises (e.g. missing
binary) skips the second sub-action. -/
theorem c7_policy_best_effort (mode : Line) (o1 o2 : RunOutcome) :
    ((apply_focus_policies mode o1 o2).2 = false) ∧
      (∀ code, o1 = RunOutcome.exits code → mode = distractedStr →
        (apply_focus_policies mode o1 o2).1 = [SubAct.dockHide, SubAct.mute]) ∧
      (∀ code, o1 = RunOutcome.exits code → mode = productiveStr →
        (apply_focus_policies mode o1 o2).1
          = [SubAct.dockShow, SubAct.unmute]) ∧
      (o1 = RunOutcome.failStart → mode = distractedStr →
        (apply_focus_policies mode o1 o2).1 = [SubAct.dockHide]) := by
  refine ⟨?_, ?_, ?_, ?_⟩
  · rw [apply_focus_policies.eq_def]
    split_ifs <;> cases o1 <;> first | rfl | (cases o2 <;> rfl)
  · intro code h1 hm
    subst h1
    subst hm
    rw [apply_focus_policies.eq_def, if_pos rfl]
    cases o2 <;> rfl
  · intro code h1 hm
    subst h1
    subst hm
    rw [apply_focus_policies.eq_def, if_neg (by decide), if_pos rfl]
    cases o2 <;> rfl
  · intro h1 hm
    subst h1
    subst hm
    rw [apply_focus_policies.eq_def, if_pos rfl]

/-- C7 witness: in distracted mode with the first command exiting
nonzero, nothing raises and both sub-actions are attempted. -/
theorem c7_policy_best_effort_witness :
    (apply_focus_policies distractedStr (RunOutcome.exits 1)
        (RunOutcome.exits 0)).2 = false ∧
      (apply_focus_policies distractedStr (RunOutcome.exits 1)
          (RunOutcome.exits 0)).1 = [SubAct.dockHide, SubAct.mute] :=
  ⟨(c7_policy_best_effort distractedStr (RunOutcome.exits 1)
      (RunOutcome.exits 0)).1,
   (c7_policy_best_effort distractedStr (RunOutcome.exits 1)
      (RunOutcome.exits 0)).2.1 1 rfl rfl⟩

theorem daemonBody_stop_exits (ins : List StepIn) :
    ∀ m : Option Mode,
      (daemonBody m (ins ++ [StepIn.stopSignal])).2 ≠ ExitKind.running := by
  induction ins with
  | nil =>
    intro m
    simp [daemonBody]
  | cons i rest ih =>
    intro m
    cases i with
    | stopSignal => simp [daemonBody]
    | tickRaise => simp [daemonBody]
    | tickApp a =>
      rw [List.cons_append, daemonBody]
      dsimp only
      exact ih (tick m a).1

theorem focus_daemon_stop_ne_running (ins : List StepIn) :
    (focus_daemon (ins ++ [StepIn.stopSignal])).2 ≠ ExitKind.running := by
  rw [focus_daemon]
  cases hb : daemonBody none (ins ++ [StepIn.stopSignal]) with
  | mk tr e =>
    have hne := daemonBody_stop_exits ins none
    rw [hb] at hne
    cases e with
    | running => exact absurd rfl hne
    | stopped => simp
    | crashed => simp

/-- C8: start while a worker is alive returns false and changes nothing
(no second worker, no new stop event); stop while idle returns false and
performs no cleanup action (state unchanged); start while idle returns
true having launched exactly one new worker with one fresh stop event;
stop while running returns true with the worker stopped and the worker's
full trace — ending with the cleanup (unblock then apply-productive) —
appended to the log before stop returns. -/
theorem c8_start_stop (c : Ctrl) (pending : List StepIn) :
    (c.running = true → start_focus_mode c = (false, c)) ∧
      (c.running = false → stop_focus_mode c pending = (false, c)) ∧
      (c.running = false →
        start_focus_mode c
          = (true,
             { c with
                running := true
                spawned := c.spawned + 1
                signalsCreated := c.signalsCreated + 1 })) ∧
      (c.running = true →
        (stop_focus_mode c pending).1 = true ∧
          (stop_focus_mode c pending).2.running = false ∧
          ∃ pre, (stop_focus_mode c pending).2.log
            = c.log ++ (pre
                ++ [Action.unblockSites, Action.applyPolicy Mode.productive])) := by
  refine ⟨?_, ?_, ?_, ?_⟩
  · intro h
    rw [start_focus_mode, if_pos h]
  · intro h
    rw [stop_focus_mode, if_neg (by simp [h])]
  · intro h
    rw [start_focus_mode, if_neg (by simp [h])]
  · intro h
    obtain ⟨pre, hpre⟩ := focus_daemon_cleanup (pending ++ [StepIn.stopSignal])
      (focus_daemon_stop_ne_running pending)
    rw [stop_focus_mode, if_pos h]
    refine ⟨rfl, rfl, pre, ?_⟩
    dsimp only
    rw [hpre]
    rfl

/-- C8 witness: starting from the idle controller launches one worker,
and stopping the running controller appends a trace ending with the
cleanup. -/
theorem c8_start_stop_witness :
    (⟨false, 0, 0, []⟩ : Ctrl).running = false ∧
      (⟨true, 1, 1, []⟩ : Ctrl).running = true ∧
      start_focus_mode ⟨false, 0, 0, []⟩ = (true, ⟨true, 1, 1, []⟩) ∧
      ((stop_focus_mode ⟨true, 1, 1, []⟩ []).1 = true ∧
        (stop_focus_mode ⟨true, 1, 1, []⟩ []).2.running = false ∧
        ∃ pre, (stop_focus_mode ⟨true, 1, 1, []⟩ []).2.log
          = [] ++ (pre
              ++ [Action.unblockSites, Action.applyPolicy Mode.productive])) :=
  ⟨rfl, rfl, (c8_start_stop ⟨false, 0, 0, []⟩ []).2.2.1 rfl,
    (c8_start_stop ⟨true, 1, 1, []⟩ []).2.2.2 rfl⟩

/-- C10 counterexample: `unblock_websites` rewrites the redirect file
with no lock events at all — its truncating write (position 1 of its
event trace) happens with no advisory lock held, and no lock event
occurs anywhere in its trace. -/
theorem c10_counterexample :
    (unblock_websites_events (some [['a']]))[1]? = some FsEvent.writeHosts ∧
      lockHeldAt (unblock_websites_events (some [['a']])) 1 = false ∧
      FsEvent.lockEx ∉ unblock_websites_events (some [['a']]) := by decide

/-- C10 (amended): every write `block_websites` performs on the redirect
file happens while the exclusive advisory lock is held (acquired before
the read of the read-modify-write and released after the last write),
but `unblock_websites` performs its read-modify-write with no lock at
all. -/
theorem c10_lock_discipline (bl : List Line) (fs : FileState) (i : Nat)
    (h : (block_websites_events bl fs)[i]? = some FsEvent.writeHosts) :
    lockHeldAt (block_websites_events bl fs) i = true ∧
      ∀ blFile, FsEvent.lockEx ∉ unblock_websites_events blFile := by
  constructor
  · by_cases hemp : (parseBlocklist bl).isEmpty
    · rw [block_websites_events, if_pos hemp] at h
      simp at h
    · rw [block_websites_events, if_neg hemp] at h ⊢
      rcases i with _ | (_ | k)
      · simp at h
      · simp at h
      · rw [List.getElem?_cons_succ, List.getElem?_cons_succ] at h
        have hk : k < ((toAddOf bl fs).map
            (fun _ => FsEvent.writeHosts)).length := by
          by_contra hge
          push_neg at hge
          rw [List.getElem?_append_right hge] at h
          rcases hkl : k - ((toAddOf bl fs).map
              (fun _ => FsEvent.writeHosts)).length with _ | j
          · rw [hkl] at h
            simp at h
          · rw [hkl] at h
            simp at h
        rw [lockHeldAt, List.take_succ_cons, List.take_succ_cons,
          List.take_append_of_le_length (Nat.le_of_lt hk)]
        have hunlock : (((toAddOf bl fs).map
              (fun _ => FsEvent.writeHosts)).take k).countP
            (fun e => decide (e = FsEvent.unlockEv)) = 0 := by
          apply List.countP_eq_zero.mpr
          intro e he
          have hmem : e ∈ (toAddOf bl fs).map (fun _ => FsEvent.writeHosts) :=
            List.take_subset _ _ he
          obtain ⟨_, _, rfl⟩ := List.mem_map.mp hmem
          simp
        have hlock : (((toAddOf bl fs).map
              (fun _ => FsEvent.writeHosts)).take k).countP
            (fun e => decide (e = FsEvent.lockEx)) = 0 := by
          apply List.countP_eq_zero.mpr
          intro e he
          have hmem : e ∈ (toAddOf bl fs).map (fun _ => FsEvent.writeHosts) :=
            List.take_subset _ _ he
          obtain ⟨_, _, rfl⟩ := List.mem_map.mp hmem
          simp
        simp only [List.countP_cons, hunlock, hlock]
        decide
  · intro blFile
    cases blFile with
    | none => simp [unblock_websites_events]
    | some bl2 => simp [unblock_websites_events]

/-- C10 witness: the single write of a concrete block call happens with
the lock held. -/
theorem c10_lock_discipline_witness :
    (block_websites_events [['a']] ⟨[], true⟩)[2]? = some FsEvent.writeHosts ∧
      (lockHeldAt (block_websites_events [['a']] ⟨[], true⟩) 2 = true ∧
        ∀ blFile, FsEvent.lockEx ∉ unblock_websites_events blFile) :=
  ⟨by decide, c10_lock_discipline [['a']] ⟨[], true⟩ 2 (by decide)⟩

end FocusMode
